import Mathlib

/-!
bt-keepalive: the sine-wave reader and the startup validation of `main.go`.

A shallow embedding of `src/main.go`.

* `SineWaveReader.Read` is embedded as `Read`: the `for` loop is `readLoop`, one
  iteration is `readBody`, and every indexed store `buf[j] = b` is `setByte`, which
  yields `none` where Go would raise an index-out-of-range run-time error.
* `int64` and `int16` values are integers with explicit two's-complement wrapping
  (`wrapInt64`, `wrapInt16`); bytes are natural numbers below 256.
* The `float64` arithmetic the program relies on (multiplication, division, `math.Sin`,
  the conversions from and to integers, and `<`) is not code of the repository. It is
  a parameter, `FloatOps F`, and every theorem about the program is proved for all such
  arithmetics, the one of the running program included.
* The theorems on bytes and state need nothing about the arithmetic. The theorems on the
  value of a sample assume what the Go specification says about the conversion of a
  finite `float64` to an integer (`Float64Value`), and the theorems on its size assume in
  addition the laws of IEEE 754 binary64 arithmetic with rounding to nearest and the
  range of `math.Sin` (`Float64Laws`). In these theorems the scaled amplitude is the
  `float64` value the program computes, every operation rounded.
* Two idealised arithmetics serve to run examples: `realOps`, the exact arithmetic of the
  real numbers, and `nanRealOps`, the same with a NaN.
-/

namespace BtKeepalive

/-! ## Constants of `main.go` -/

/-- Go: `sampleRate = 44100`. -/
def sampleRate : Nat := 44100

/-- Go: `channelCount = 2`. -/
def channelCount : Nat := 2

/-- Go: `bitDepth = 2` (16-bit samples are two bytes). -/
def bitDepth : Nat := 2

/-- Go: `math.MaxInt16`. -/
def maxInt16 : Nat := 32767

/-! ## Machine integers -/

/-- Two's-complement wrap of an integer into the `int64` range. -/
def wrapInt64 (x : Int) : Int := (x + 2 ^ 63) % 2 ^ 64 - 2 ^ 63

/-- Two's-complement wrap of an integer into the `int16` range. -/
def wrapInt16 (x : Int) : Int := (x + 2 ^ 15) % 2 ^ 16 - 2 ^ 15

/-- Go: `byte(v)` for a signed integer `v`: the low eight bits. -/
def byte (v : Int) : Nat := (v % 256).toNat

/-! ## Floating-point operations used by the program -/

/-- The `float64` operations that `main.go` applies, over a carrier `F`. -/
structure FloatOps (F : Type) where
  /-- An untyped integer constant used at type `float64`. -/
  ofNat : Nat → F
  /-- The constant expression `2*math.Pi`. -/
  twoPi : F
  /-- Multiplication `x * y`. -/
  mul : F → F → F
  /-- Division `x / y`. -/
  div : F → F → F
  /-- The library function `math.Sin`. -/
  sin : F → F
  /-- The conversion `float64(n)` of an `int64`. -/
  ofInt64 : Int → F
  /-- The integer part taken by a float-to-integer conversion. -/
  trunc : F → Int
  /-- The comparison `x < y`. -/
  lt : F → F → Bool

/-- Exact arithmetic on the real numbers; `trunc` discards the fraction (towards zero).
An idealised arithmetic: no operation rounds and there is no NaN. -/
noncomputable def realOps : FloatOps ℝ where
  ofNat n := (n : ℝ)
  twoPi := 2 * Real.pi
  mul x y := x * y
  div x y := x / y
  sin := Real.sin
  ofInt64 z := (z : ℝ)
  trunc x := if 0 ≤ x then ⌊x⌋ else ⌈x⌉
  lt x y := decide (x < y)

/-! ## `SineWaveReader` -/

/-- Go: `type SineWaveReader struct { freq, volume float64; pos int64 }`. -/
structure SineWaveReader (F : Type) where
  freq : F
  volume : F
  pos : Int

/-- Go: the local `sample` of one loop iteration entered in state `s`:
`s.volume * math.Sin(2*math.Pi*s.freq*float64(s.pos)/sampleRate)`. -/
def sample {F : Type} (A : FloatOps F) (s : SineWaveReader F) : F :=
  A.mul s.volume
    (A.sin (A.div (A.mul (A.mul A.twoPi s.freq) (A.ofInt64 s.pos)) (A.ofNat sampleRate)))

/-- Go: the local `val := int16(sample * math.MaxInt16)`. The result is an `int16`;
where the integer part does not fit, Go leaves the value implementation-dependent and
the embedding keeps its low sixteen bits. -/
def val {F : Type} (A : FloatOps F) (s : SineWaveReader F) : Int :=
  wrapInt16 (A.trunc (A.mul (sample A s) (A.ofNat maxInt16)))

/-- Go: `s.pos++` on an `int64`. -/
def incPos {F : Type} (s : SineWaveReader F) : SineWaveReader F :=
  { s with pos := wrapInt64 (s.pos + 1) }

/-- Go: the store `buf[i] = v`; `none` is the index-out-of-range run-time error. -/
def setByte (buf : List Nat) (i : Nat) (v : Nat) : Option (List Nat) :=
  if i < buf.length then some (buf.set i v) else none

/-- One iteration of the loop of `Read` with loop index `i`. -/
def readBody {F : Type} (A : FloatOps F) (i : Nat) (s : SineWaveReader F) (buf : List Nat) :
    Option (SineWaveReader F × List Nat) :=
  let v := val A s
  let s1 := incPos s
  (setByte buf (i * 4) (byte v)).bind fun b1 =>
  (setByte b1 (i * 4 + 1) (byte (v >>> (8 : Nat)))).bind fun b2 =>
  (setByte b2 (i * 4 + 2) (byte v)).bind fun b3 =>
  (setByte b3 (i * 4 + 3) (byte (v >>> (8 : Nat)))).bind fun b4 =>
  some (s1, b4)

/-- The loop `for i := ...; i < len(buf)/4; i++`, entered with index `i` and `k`
iterations left (`k = len(buf)/4 - i`). -/
def readLoop {F : Type} (A : FloatOps F) :
    Nat → Nat → SineWaveReader F → List Nat → Option (SineWaveReader F × List Nat)
  | 0, _, s, buf => some (s, buf)
  | k + 1, i, s, buf =>
    (readBody A i s buf).bind fun r => readLoop A k (i + 1) r.1 r.2

/-- What a call of `Read` leaves behind: the buffer, the two returned values and the
receiver. -/
structure ReadResult (F : Type) where
  buf : List Nat
  n : Nat
  err : Option String
  state : SineWaveReader F

/-- Go: `func (s *SineWaveReader) Read(buf []byte) (int, error)`. -/
def Read {F : Type} (A : FloatOps F) (s : SineWaveReader F) (buf : List Nat) :
    Option (ReadResult F) :=
  (readLoop A (buf.length / 4) 0 s buf).map fun r =>
    { buf := r.2, n := buf.length, err := none, state := r.1 }

/-! ## Startup of `main` -/

/-- How the startup part of `main` ends: whether `oto.NewContext` was called, the
status passed to `os.Exit` (if any), and what was printed on standard error. -/
structure Startup where
  deviceOpened : Bool
  exitCode : Option Nat
  stderr : List String
deriving DecidableEq

/-- Go: `main` from the end of flag parsing to the check of `oto.NewContext`'s error.
`ctxErr` is the error returned by `oto.NewContext` (`none` for `nil`). -/
def main {F : Type} (A : FloatOps F) (freq volume : F) (ctxErr : Option String) : Startup :=
  if A.lt volume (A.ofNat 0) || A.lt (A.ofNat 1) volume then
    { deviceOpened := false, exitCode := some 1,
      stderr := ["Error: volume must be between 0.0 and 1.0"] }
  else if A.lt freq (A.ofNat 1) || A.lt (A.ofNat 20000) freq then
    { deviceOpened := false, exitCode := some 1,
      stderr := ["Error: frequency must be between 1 and 20000 Hz"] }
  else
    match ctxErr with
    | some e =>
      { deviceOpened := true, exitCode := some 1,
        stderr := ["Error initializing audio: " ++ e] }
    | none => { deviceOpened := true, exitCode := none, stderr := [] }

/-! ## Specification-side definitions -/

/-- The four bytes of one stereo frame carrying the 16-bit value `v` on both channels. -/
def frame (v : Int) : List Nat :=
  [byte v, byte (v >>> (8 : Nat)), byte v, byte (v >>> (8 : Nat))]

/-- The state after `k` sample pairs. -/
def advance {F : Type} : Nat → SineWaveReader F → SineWaveReader F
  | 0, s => s
  | k + 1, s => advance k (incPos s)

/-- The bytes of `k` consecutive frames generated from state `s`. -/
def frames {F : Type} (A : FloatOps F) : Nat → SineWaveReader F → List Nat
  | 0, _ => []
  | k + 1, s => frame (val A s) ++ frames A k (incPos s)

/-- The `int16` that a little-endian byte pair (low byte first) decodes to. -/
def decodeInt16 (lo hi : Nat) : Int := wrapInt16 ((lo : Int) + 256 * (hi : Int))

/-- The left-channel value of sample pair `k` in a buffer. -/
def leftSample (buf : List Nat) (k : Nat) : Int :=
  decodeInt16 (buf.getD (4 * k) 0) (buf.getD (4 * k + 1) 0)

/-- The right-channel value of sample pair `k` in a buffer. -/
def rightSample (buf : List Nat) (k : Nat) : Int :=
  decodeInt16 (buf.getD (4 * k + 2) 0) (buf.getD (4 * k + 3) 0)

/-- The scaled amplitude of the specification at sample index `p`:
`volume * sin(2π * frequency * p / sampleRate) * 32767`, in exact real arithmetic. -/
noncomputable def scaledAmplitude (freq volume : ℝ) (p : Int) : ℝ :=
  volume * Real.sin (2 * Real.pi * freq * (p : ℝ) / 44100) * 32767

/-! ## `float64` values and the laws of their arithmetic -/

/-- The integer part of a real number: the fraction is discarded (towards zero). -/
noncomputable def truncZ (x : ℝ) : Int := if 0 ≤ x then ⌊x⌋ else ⌈x⌉

/-- Go: the argument of `math.Sin` in `Read`:
`2*math.Pi*s.freq*float64(s.pos)/sampleRate`. -/
def sinArg {F : Type} (A : FloatOps F) (freq : F) (pos : Int) : F :=
  A.div (A.mul (A.mul A.twoPi freq) (A.ofInt64 pos)) (A.ofNat sampleRate)

/-- Go: the operand `sample * math.MaxInt16` of the conversion to `int16` in `Read`. -/
def amplitude {F : Type} (A : FloatOps F) (s : SineWaveReader F) : F :=
  A.mul (sample A s) (A.ofNat maxInt16)

/-- What the Go specification fixes about a `float64` value and its conversion to an
integer type. -/
structure Float64Value {F : Type} (A : FloatOps F) where
  /-- The real number that a finite value stands for; `none` for NaN and the two
  infinities. -/
  toReal : F → Option ℝ
  /-- Go, Conversions: converting a floating-point number to an integer discards the
  fraction; this fixes the result whenever it fits the target type, here `int16`. -/
  trunc_val : ∀ (f : F) (x : ℝ), toReal f = some x → -32769 < x → x < 32768 →
    A.trunc f = truncZ x

/-- What IEEE 754 binary64 arithmetic with rounding to nearest, the Go specification and
the contract of `math.Sin` fix about the operations of `FloatOps`. The function `rnd`
is the rounding of a real number to `float64`. -/
structure Float64Laws {F : Type} (A : FloatOps F) extends Float64Value A where
  /-- Rounding of a real number to the nearest `float64`. -/
  rnd : ℝ → ℝ
  /-- Rounding is monotone. -/
  rnd_mono : ∀ x y : ℝ, x ≤ y → rnd x ≤ rnd y
  /-- Rounding is symmetric about zero. -/
  rnd_neg : ∀ x : ℝ, rnd (-x) = -rnd x
  /-- Integers up to `2^53` are `float64` values. -/
  rnd_nat : ∀ n : Nat, n ≤ 2 ^ 53 → rnd (n : ℝ) = (n : ℝ)
  /-- The rounding error: half a unit in the last place, or half the smallest
  subnormal number. -/
  rnd_err : ∀ x : ℝ, |rnd x - x| ≤ |x| / 2 ^ 53 + 1 / 2 ^ 1075
  /-- An integer constant up to `2^53` converts exactly. -/
  ofNat_val : ∀ n : Nat, n ≤ 2 ^ 53 → toReal (A.ofNat n) = some (n : ℝ)
  /-- The constant `2*math.Pi` is a finite value between 6 and 7. -/
  twoPi_val : ∃ t : ℝ, toReal A.twoPi = some t ∧ 6 < t ∧ t < 7
  /-- The conversion `float64(n)` of an `int64` rounds. -/
  ofInt64_val : ∀ z : Int, -2 ^ 63 ≤ z → z < 2 ^ 63 →
    toReal (A.ofInt64 z) = some (rnd (z : ℝ))
  /-- A product of finite values is the rounded exact product, short of overflow. -/
  mul_val : ∀ (f g : F) (x y : ℝ), toReal f = some x → toReal g = some y →
    |x * y| ≤ 2 ^ 1023 → toReal (A.mul f g) = some (rnd (x * y))
  /-- A quotient of finite values with a non-zero divisor is the rounded exact quotient,
  short of overflow. -/
  div_val : ∀ (f g : F) (x y : ℝ), toReal f = some x → toReal g = some y → y ≠ 0 →
    |x / y| ≤ 2 ^ 1023 → toReal (A.div f g) = some (rnd (x / y))
  /-- The library function `math.Sin` maps a finite value to a finite value in
  `[-1, 1]`. -/
  sin_val : ∀ (f : F) (x : ℝ), toReal f = some x →
    ∃ y : ℝ, toReal (A.sin f) = some y ∧ |y| ≤ 1
  /-- The comparison `<` of finite values is the order of the real numbers. -/
  lt_val : ∀ (f g : F) (x y : ℝ), toReal f = some x → toReal g = some y →
    (A.lt f g = true ↔ x < y)

/-! ## An arithmetic with a NaN -/

/-- Exact real arithmetic extended by one value `none` that is not a number: the
operations propagate it and every comparison with it is false, as with a `float64` NaN.
A division by zero, which the program never performs, yields it as well. The conversion
of `none` to an integer, which Go leaves implementation-dependent, is taken to be 0. -/
noncomputable def nanRealOps : FloatOps (Option ℝ) where
  ofNat n := some (n : ℝ)
  twoPi := some (2 * Real.pi)
  mul x y :=
    match x, y with
    | some a, some b => some (a * b)
    | _, _ => none
  div x y :=
    match x, y with
    | some a, some b => if b = 0 then none else some (a / b)
    | _, _ => none
  sin x := x.map Real.sin
  ofInt64 z := some (z : ℝ)
  trunc x :=
    match x with
    | some a => truncZ a
    | none => 0
  lt x y :=
    match x, y with
    | some a, some b => decide (a < b)
    | _, _ => false

/-- The values of `nanRealOps`: every real number is a finite value. -/
noncomputable def nanRealValue : Float64Value nanRealOps where
  toReal f := f
  trunc_val := by
    intro f x hf _ _
    subst hf
    rfl

/-- The arithmetic `nanRealOps` obeys `Float64Laws` with the identity as rounding. -/
noncomputable def nanRealLaws : Float64Laws nanRealOps where
  toFloat64Value := nanRealValue
  rnd x := x
  rnd_mono := fun _ _ h => h
  rnd_neg := fun _ => rfl
  rnd_nat := fun _ _ => rfl
  rnd_err := by
    intro x
    simp only [sub_self, abs_zero]
    positivity
  ofNat_val := fun _ _ => rfl
  twoPi_val := ⟨2 * Real.pi, rfl, by linarith [Real.pi_gt_three], by linarith [Real.pi_lt_d2]⟩
  ofInt64_val := fun _ _ _ => rfl
  mul_val := by
    intro f g x y hf hg _
    have hf2 : f = some x := hf
    have hg2 : g = some y := hg
    subst hf2 hg2
    rfl
  div_val := by
    intro f g x y hf hg hy _
    have hf2 : f = some x := hf
    have hg2 : g = some y := hg
    subst hf2 hg2
    show (if y = 0 then none else some (x / y)) = some (x / y)
    rw [if_neg hy]
  sin_val := by
    intro f x hf
    have hf2 : f = some x := hf
    subst hf2
    exact ⟨Real.sin x, rfl, Real.abs_sin_le_one x⟩
  lt_val := by
    intro f g x y hf hg
    have hf2 : f = some x := hf
    have hg2 : g = some y := hg
    subst hf2 hg2
    show decide (x < y) = true ↔ x < y
    simp

/-! ## The loop -/

theorem setByte_append (pre : List Nat) (x v : Nat) (rest : List Nat) :
    setByte (pre ++ x :: rest) pre.length v = some (pre ++ v :: rest) := by
  unfold setByte
  have h : pre.length < (pre ++ x :: rest).length := by simp
  rw [if_pos h]
  simp

theorem setByte_append_mid (pre mid : List Nat) (x v : Nat) (rest : List Nat) :
    setByte (pre ++ (mid ++ x :: rest)) (pre.length + mid.length) v
      = some (pre ++ (mid ++ v :: rest)) := by
  have h := setByte_append (pre ++ mid) x v rest
  simpa [List.append_assoc] using h

theorem readBody_append {F : Type} (A : FloatOps F) (i : Nat) (s : SineWaveReader F)
    (pre : List Nat) (a b c d : Nat) (rest : List Nat) (hpre : pre.length = i * 4) :
    readBody A i s (pre ++ a :: b :: c :: d :: rest)
      = some (incPos s, pre ++ (frame (val A s) ++ rest)) := by
  unfold readBody
  have h0 := setByte_append_mid pre [] a (byte (val A s)) (b :: c :: d :: rest)
  have h1 := setByte_append_mid pre [byte (val A s)] b (byte (val A s >>> (8 : Nat))) (c :: d :: rest)
  have h2 := setByte_append_mid pre [byte (val A s), byte (val A s >>> (8 : Nat))] c (byte (val A s))
    (d :: rest)
  have h3 := setByte_append_mid pre [byte (val A s), byte (val A s >>> (8 : Nat)), byte (val A s)] d
    (byte (val A s >>> (8 : Nat))) rest
  simp only [List.length_nil, List.length_cons, List.nil_append, List.cons_append,
    Nat.add_zero, Nat.zero_add, hpre] at h0 h1 h2 h3
  simp only [h0, h1, h2, h3, Option.bind_eq_bind, Option.some_bind, frame, List.cons_append,
    List.nil_append]

theorem readLoop_append {F : Type} (A : FloatOps F) (k : Nat) :
    ∀ (i : Nat) (s : SineWaveReader F) (pre mid post : List Nat),
      pre.length = i * 4 → mid.length = k * 4 →
      readLoop A k i s (pre ++ (mid ++ post))
        = some (advance k s, pre ++ (frames A k s ++ post)) := by
  induction k with
  | zero =>
    intro i s pre mid post _ hmid
    have : mid = [] := List.length_eq_zero.mp (by simpa using hmid)
    subst this
    simp [readLoop, advance, frames]
  | succ k ih =>
    intro i s pre mid post hpre hmid
    obtain ⟨a, b, c, d, mid1, rfl⟩ : ∃ a b c d mid1, mid = a :: b :: c :: d :: mid1 := by
      match mid, hmid with
      | [], h => simp only [List.length_cons, List.length_nil] at h; omega
      | [_], h => simp only [List.length_cons, List.length_nil] at h; omega
      | [_, _], h => simp only [List.length_cons, List.length_nil] at h; omega
      | [_, _, _], h => simp only [List.length_cons, List.length_nil] at h; omega
      | a :: b :: c :: d :: mid1, _ => exact ⟨a, b, c, d, mid1, rfl⟩
    · have hlen : mid1.length = k * 4 := by
        simp only [List.length_cons] at hmid
        omega
      have hb := readBody_append A i s pre a b c d (mid1 ++ post) hpre
      have hpre1 : (pre ++ frame (val A s)).length = (i + 1) * 4 := by
        simp [frame, hpre]
        omega
      have hrec := ih (i + 1) (incPos s) (pre ++ frame (val A s)) mid1 post hpre1 hlen
      simp only [List.cons_append] at hb ⊢
      simp only [readLoop, hb, Option.bind_eq_bind, Option.some_bind]
      simp only [List.append_assoc] at hrec
      rw [hrec]
      simp [advance, frames, List.append_assoc]

/-- What `Read` computes, in closed form: no run-time error, `len(buf)/4` frames
followed by the untouched rest of the buffer, `len(buf)` and `nil` returned. -/
theorem Read_eq {F : Type} (A : FloatOps F) (s : SineWaveReader F) (buf : List Nat) :
    Read A s buf = some
      { buf := frames A (buf.length / 4) s ++ buf.drop (buf.length / 4 * 4),
        n := buf.length, err := none, state := advance (buf.length / 4) s } := by
  have hle : buf.length / 4 * 4 ≤ buf.length := Nat.div_mul_le_self _ _
  have hmid : (buf.take (buf.length / 4 * 4)).length = buf.length / 4 * 4 := by
    rw [List.length_take]
    exact Nat.min_eq_left hle
  have h := readLoop_append A (buf.length / 4) 0 s [] (buf.take (buf.length / 4 * 4))
    (buf.drop (buf.length / 4 * 4)) (by simp) hmid
  simp only [List.nil_append, List.take_append_drop] at h
  simp [Read, h]

/-! ## Frames and states -/

theorem frame_length (v : Int) : (frame v).length = 4 := rfl

theorem frames_length {F : Type} (A : FloatOps F) (k : Nat) :
    ∀ s : SineWaveReader F, (frames A k s).length = k * 4 := by
  induction k with
  | zero => intro s; simp [frames]
  | succ k ih =>
    intro s
    simp only [frames, List.length_append, frame_length, ih]
    omega

theorem advance_add {F : Type} (a b : Nat) :
    ∀ s : SineWaveReader F, advance (a + b) s = advance b (advance a s) := by
  induction a with
  | zero => intro s; simp [advance]
  | succ a ih =>
    intro s
    have h : a + 1 + b = (a + b) + 1 := by omega
    rw [h]
    simp only [advance]
    exact ih (incPos s)

theorem frames_add {F : Type} (A : FloatOps F) (a b : Nat) :
    ∀ s : SineWaveReader F, frames A (a + b) s = frames A a s ++ frames A b (advance a s) := by
  induction a with
  | zero => intro s; simp [frames, advance]
  | succ a ih =>
    intro s
    have h : a + 1 + b = (a + b) + 1 := by omega
    rw [h]
    simp only [frames, advance, List.append_assoc]
    rw [ih (incPos s)]

theorem advance_freq {F : Type} (k : Nat) :
    ∀ s : SineWaveReader F, (advance k s).freq = s.freq := by
  induction k with
  | zero => intro s; rfl
  | succ k ih => intro s; simp only [advance]; rw [ih]; rfl

theorem advance_volume {F : Type} (k : Nat) :
    ∀ s : SineWaveReader F, (advance k s).volume = s.volume := by
  induction k with
  | zero => intro s; rfl
  | succ k ih => intro s; simp only [advance]; rw [ih]; rfl

theorem wrapInt64_of_range (x : Int) (h1 : -2 ^ 63 ≤ x) (h2 : x < 2 ^ 63) : wrapInt64 x = x := by
  unfold wrapInt64
  omega

theorem wrapInt16_of_range (x : Int) (h1 : -2 ^ 15 ≤ x) (h2 : x < 2 ^ 15) : wrapInt16 x = x := by
  unfold wrapInt16
  omega

theorem wrapInt16_range (x : Int) : -32768 ≤ wrapInt16 x ∧ wrapInt16 x ≤ 32767 := by
  unfold wrapInt16
  omega

theorem advance_pos {F : Type} (k : Nat) :
    ∀ s : SineWaveReader F, -2 ^ 63 ≤ s.pos → s.pos + k < 2 ^ 63 →
      (advance k s).pos = s.pos + k := by
  induction k with
  | zero => intro s _ _; simp [advance]
  | succ k ih =>
    intro s h1 h2
    have hw : (incPos s).pos = s.pos + 1 := by
      simp only [incPos]
      apply wrapInt64_of_range <;> push_cast at h2 <;> omega
    simp only [advance]
    rw [ih (incPos s) (by rw [hw]; omega) (by rw [hw]; push_cast at h2 ⊢; omega), hw]
    push_cast
    omega

theorem frames_getD {F : Type} (A : FloatOps F) (n : Nat) :
    ∀ (s : SineWaveReader F) (k j : Nat), k < n → j < 4 →
      (frames A n s).getD (4 * k + j) 0 = (frame (val A (advance k s))).getD j 0 := by
  induction n with
  | zero => intro s k j hk _; omega
  | succ n ih =>
    intro s k j hk hj
    cases k with
    | zero =>
      simp only [frames, advance, Nat.mul_zero, Nat.zero_add]
      rw [List.getD_append _ _ _ _ (by rw [frame_length]; exact hj)]
    | succ k =>
      simp only [frames, advance]
      rw [List.getD_append_right _ _ _ _ (by rw [frame_length]; omega)]
      rw [frame_length]
      have h : 4 * (k + 1) + j - 4 = 4 * k + j := by omega
      rw [h]
      exact ih (incPos s) k j (by omega) hj

theorem byte_cast (v : Int) : ((byte v : Nat) : Int) = v % 256 := by
  unfold byte
  exact Int.toNat_of_nonneg (Int.emod_nonneg _ (by decide))

theorem shiftRight_eight (v : Int) : v >>> (8 : Nat) = v / 256 := by
  rw [Int.shiftRight_eq_div_pow]
  norm_num

theorem val_range {F : Type} (A : FloatOps F) (s : SineWaveReader F) :
    -32768 ≤ val A s ∧ val A s ≤ 32767 := wrapInt16_range _

theorem frames_append_getD {F : Type} (A : FloatOps F) (n : Nat) (s : SineWaveReader F)
    (rest : List Nat) (k j : Nat) (hk : k < n) (hj : j < 4) :
    (frames A n s ++ rest).getD (4 * k + j) 0 = (frame (val A (advance k s))).getD j 0 := by
  rw [List.getD_append _ _ _ _ (by rw [frames_length]; omega)]
  exact frames_getD A n s k j hk hj

theorem decodeInt16_bytes (v : Int) (h1 : -32768 ≤ v) (h2 : v ≤ 32767) :
    decodeInt16 (byte v) (byte (v >>> (8 : Nat))) = v := by
  unfold decodeInt16 wrapInt16
  rw [byte_cast, byte_cast, shiftRight_eight]
  omega

/-! ## The claims on bytes and state -/

/-- C1. Phase continuity: one `Read` into a buffer of `4*(a+b)` bytes yields the bytes
of a `Read` into a `4*a`-byte buffer followed by the bytes of a `Read` into a
`4*b`-byte buffer on the same generator, and both runs end in the same state (in
particular with the same `pos`). -/
theorem C1_phase_continuity {F : Type} (A : FloatOps F) (s : SineWaveReader F) (a b : Nat)
    (whole part1 part2 : List Nat) (hw : whole.length = 4 * (a + b))
    (h1 : part1.length = 4 * a) (h2 : part2.length = 4 * b) :
    ∃ r r1 r2, Read A s whole = some r ∧ Read A s part1 = some r1 ∧
      Read A r1.state part2 = some r2 ∧
      r.buf = r1.buf ++ r2.buf ∧ r.state.pos = r2.state.pos ∧ r.state = r2.state := by
  have ea : part1.length / 4 = a := by omega
  have eb : part2.length / 4 = b := by omega
  have ew : whole.length / 4 = a + b := by omega
  have da : List.drop (a * 4) part1 = [] := List.drop_eq_nil_of_le (by omega)
  have db : List.drop (b * 4) part2 = [] := List.drop_eq_nil_of_le (by omega)
  have dw : List.drop ((a + b) * 4) whole = [] := List.drop_eq_nil_of_le (by omega)
  refine ⟨_, _, _, Read_eq A s whole, Read_eq A s part1, Read_eq A _ part2, ?_, ?_, ?_⟩
  · simp only [ea, eb, ew, da, db, dw, List.append_nil]
    exact frames_add A a b s
  · simp only [ea, eb, ew]
    rw [advance_add]
  · simp only [ea, eb, ew]
    exact advance_add a b s

/-- A run of C1: three sample pairs read at once and read as one pair then two. -/
theorem C1_phase_continuity_witness :
    ∃ r r1 r2, Read realOps ⟨440, 1, 0⟩ [1, 2, 3, 4, 5, 6, 7, 8, 9, 10, 11, 12] = some r ∧
      Read realOps ⟨440, 1, 0⟩ [0, 0, 0, 0] = some r1 ∧
      Read realOps r1.state [9, 9, 9, 9, 9, 9, 9, 9] = some r2 ∧
      r.buf = r1.buf ++ r2.buf ∧ r.state.pos = r2.state.pos ∧ r.state = r2.state :=
  C1_phase_continuity realOps ⟨440, 1, 0⟩ 1 2 [1, 2, 3, 4, 5, 6, 7, 8, 9, 10, 11, 12]
    [0, 0, 0, 0] [9, 9, 9, 9, 9, 9, 9, 9] (by decide) (by decide) (by decide)

/-- C2. Startup validation: `main` exits with status 1 without having called
`oto.NewContext` exactly when `frequency < 1`, `frequency > 20000`, `volume < 0` or
`volume > 1`; for exactly the other pairs it calls `oto.NewContext`. -/
theorem C2_startup_validation {F : Type} (A : FloatOps F) (freq volume : F)
    (ctxErr : Option String) :
    (((main A freq volume ctxErr).exitCode = some 1 ∧
        (main A freq volume ctxErr).deviceOpened = false) ↔
      (A.lt freq (A.ofNat 1) = true ∨ A.lt (A.ofNat 20000) freq = true ∨
        A.lt volume (A.ofNat 0) = true ∨ A.lt (A.ofNat 1) volume = true)) ∧
    ((main A freq volume ctxErr).deviceOpened = true ↔
      ¬ (A.lt freq (A.ofNat 1) = true ∨ A.lt (A.ofNat 20000) freq = true ∨
        A.lt volume (A.ofNat 0) = true ∨ A.lt (A.ofNat 1) volume = true)) := by
  unfold main
  cases hv0 : A.lt volume (A.ofNat 0) <;> cases hv1 : A.lt (A.ofNat 1) volume <;>
    cases hf0 : A.lt freq (A.ofNat 1) <;> cases hf1 : A.lt (A.ofNat 20000) freq <;>
    cases ctxErr <;> simp

/-- C4. Stereo little-endian layout: for every `k < len(buf)/4`, after `Read` the bytes
`4k` and `4k+2` are the low byte of the sample, the bytes `4k+1` and `4k+3` its high
byte, `buf[4k] + 256*buf[4k+1]` is the sample's 16-bit two's-complement value, and both
channels decode to the sample. -/
theorem C4_stereo_little_endian {F : Type} (A : FloatOps F) (s : SineWaveReader F)
    (buf : List Nat) (k : Nat) (hk : k < buf.length / 4) :
    ∃ r, Read A s buf = some r ∧
      ((r.buf.getD (4 * k) 0 : Nat) : Int) = val A (advance k s) % 256 ∧
      ((r.buf.getD (4 * k + 2) 0 : Nat) : Int) = val A (advance k s) % 256 ∧
      ((r.buf.getD (4 * k + 1) 0 : Nat) : Int) = val A (advance k s) / 256 % 256 ∧
      ((r.buf.getD (4 * k + 3) 0 : Nat) : Int) = val A (advance k s) / 256 % 256 ∧
      ((r.buf.getD (4 * k) 0 : Nat) : Int) + 256 * ((r.buf.getD (4 * k + 1) 0 : Nat) : Int)
        = val A (advance k s) % 65536 ∧
      leftSample r.buf k = val A (advance k s) ∧
      rightSample r.buf k = val A (advance k s) := by
  refine ⟨_, Read_eq A s buf, ?_⟩
  have g0 := frames_append_getD A (buf.length / 4) s (buf.drop (buf.length / 4 * 4)) k 0 hk
    (by decide)
  have g1 := frames_append_getD A (buf.length / 4) s (buf.drop (buf.length / 4 * 4)) k 1 hk
    (by decide)
  have g2 := frames_append_getD A (buf.length / 4) s (buf.drop (buf.length / 4 * 4)) k 2 hk
    (by decide)
  have g3 := frames_append_getD A (buf.length / 4) s (buf.drop (buf.length / 4 * 4)) k 3 hk
    (by decide)
  simp only [frame, Nat.add_zero, List.getD_cons_zero, List.getD_cons_succ] at g0 g1 g2 g3
  have hr := val_range A (advance k s)
  have hd := decodeInt16_bytes (val A (advance k s)) hr.1 hr.2
  simp only [leftSample, rightSample, g0, g1, g2, g3, hd]
  simp only [byte_cast, shiftRight_eight, and_true, true_and]
  omega

/-- A run of C4 on the second sample pair of an eight-byte buffer. -/
theorem C4_stereo_little_endian_witness :
    ∃ r, Read realOps ⟨440, 1, 0⟩ [0, 0, 0, 0, 0, 0, 0, 0] = some r ∧
      ((r.buf.getD (4 * 1) 0 : Nat) : Int) = val realOps (advance 1 ⟨440, 1, 0⟩) % 256 ∧
      ((r.buf.getD (4 * 1 + 2) 0 : Nat) : Int) = val realOps (advance 1 ⟨440, 1, 0⟩) % 256 ∧
      ((r.buf.getD (4 * 1 + 1) 0 : Nat) : Int)
        = val realOps (advance 1 ⟨440, 1, 0⟩) / 256 % 256 ∧
      ((r.buf.getD (4 * 1 + 3) 0 : Nat) : Int)
        = val realOps (advance 1 ⟨440, 1, 0⟩) / 256 % 256 ∧
      ((r.buf.getD (4 * 1) 0 : Nat) : Int) + 256 * ((r.buf.getD (4 * 1 + 1) 0 : Nat) : Int)
        = val realOps (advance 1 ⟨440, 1, 0⟩) % 65536 ∧
      leftSample r.buf 1 = val realOps (advance 1 ⟨440, 1, 0⟩) ∧
      rightSample r.buf 1 = val realOps (advance 1 ⟨440, 1, 0⟩) :=
  C4_stereo_little_endian realOps ⟨440, 1, 0⟩ [0, 0, 0, 0, 0, 0, 0, 0] 1 (by decide)

/-- C5. `Read` never fails and fills the buffer: for a buffer whose length `L` is a
multiple of 4 it returns `(L, nil)`, and the `L` bytes left in the buffer are the
generated frames, byte `j` being byte `j mod 4` of the frame of sample pair `j / 4`;
nothing of the buffer's previous content enters the result. -/
theorem C5_read_fills_buffer {F : Type} (A : FloatOps F) (s : SineWaveReader F)
    (buf : List Nat) (h : buf.length % 4 = 0) :
    ∃ r, Read A s buf = some r ∧ r.n = buf.length ∧ r.err = none ∧
      r.buf.length = buf.length ∧
      r.buf = frames A (buf.length / 4) s ∧
      (∀ j, j < buf.length →
        r.buf.getD j 0 = (frame (val A (advance (j / 4) s))).getD (j % 4) 0) ∧
      (∀ other : List Nat, other.length = buf.length →
        ∃ r2, Read A s other = some r2 ∧ r2.buf = r.buf) := by
  have hd : ∀ l : List Nat, l.length = buf.length → List.drop (l.length / 4 * 4) l = [] :=
    fun l _ => List.drop_eq_nil_of_le (by omega)
  refine ⟨_, Read_eq A s buf, rfl, rfl, ?_, ?_, ?_, ?_⟩
  · simp only [hd buf rfl, List.append_nil, frames_length]
    omega
  · simp only [hd buf rfl, List.append_nil]
  · intro j hj
    have g := frames_append_getD A (buf.length / 4) s (buf.drop (buf.length / 4 * 4)) (j / 4)
      (j % 4) (by omega) (Nat.mod_lt _ (by decide))
    have e : 4 * (j / 4) + j % 4 = j := Nat.div_add_mod j 4
    rw [e] at g
    exact g
  · intro other ho
    refine ⟨_, Read_eq A s other, ?_⟩
    have e := hd other ho
    rw [ho] at e
    simp only [hd buf rfl, e, List.append_nil, ho]

/-- A run of C5 on an eight-byte buffer. -/
theorem C5_read_fills_buffer_witness :
    ∃ r, Read realOps ⟨440, 1, 0⟩ [1, 2, 3, 4, 5, 6, 7, 8] = some r ∧
      r.n = [1, 2, 3, 4, 5, 6, 7, 8].length ∧ r.err = none ∧
      r.buf.length = [1, 2, 3, 4, 5, 6, 7, 8].length ∧
      r.buf = frames realOps ([1, 2, 3, 4, 5, 6, 7, 8].length / 4) ⟨440, 1, 0⟩ ∧
      (∀ j, j < [1, 2, 3, 4, 5, 6, 7, 8].length →
        r.buf.getD j 0
          = (frame (val realOps (advance (j / 4) ⟨440, 1, 0⟩))).getD (j % 4) 0) ∧
      (∀ other : List Nat, other.length = [1, 2, 3, 4, 5, 6, 7, 8].length →
        ∃ r2, Read realOps ⟨440, 1, 0⟩ other = some r2 ∧ r2.buf = r.buf) :=
  C5_read_fills_buffer realOps ⟨440, 1, 0⟩ [1, 2, 3, 4, 5, 6, 7, 8] (by decide)

/-- C6. Phase counter: below the `int64` wrap-around point, `Read(buf)` leaves `pos`
equal to its previous value plus `len(buf)/4`, never smaller than before, and leaves
`freq` and `volume` unchanged. -/
theorem C6_pos_advances {F : Type} (A : FloatOps F) (s : SineWaveReader F) (buf : List Nat)
    (hlo : -2 ^ 63 ≤ s.pos) (hhi : s.pos + ((buf.length / 4 : Nat) : Int) < 2 ^ 63) :
    ∃ r, Read A s buf = some r ∧
      r.state.pos = s.pos + ((buf.length / 4 : Nat) : Int) ∧ s.pos ≤ r.state.pos ∧
      r.state.freq = s.freq ∧ r.state.volume = s.volume := by
  refine ⟨_, Read_eq A s buf, ?_, ?_, ?_, ?_⟩
  · exact advance_pos _ s hlo hhi
  · show s.pos ≤ (advance (buf.length / 4) s).pos
    rw [advance_pos _ s hlo hhi]
    omega
  · exact advance_freq _ s
  · exact advance_volume _ s

/-- A run of C6: two sample pairs (and a partial one) from position 7. -/
theorem C6_pos_advances_witness :
    ∃ r, Read realOps ⟨440, 1, 7⟩ [0, 0, 0, 0, 0, 0, 0, 0, 0] = some r ∧
      r.state.pos = (7 : Int) + (([0, 0, 0, 0, 0, 0, 0, 0, 0].length / 4 : Nat) : Int) ∧
      (7 : Int) ≤ r.state.pos ∧
      r.state.freq = (440 : ℝ) ∧ r.state.volume = (1 : ℝ) :=
  C6_pos_advances realOps ⟨440, 1, 7⟩ [0, 0, 0, 0, 0, 0, 0, 0, 0] (by norm_num)
    (by norm_num)

/-- C10. Partial trailing frame: for a buffer whose length `L` is not a multiple of 4,
`Read` raises no index error, changes no byte at an index from `4*(L/4)` on (these are
the last `L mod 4` bytes), and still returns `L`. -/
theorem C10_partial_trailing_frame {F : Type} (A : FloatOps F) (s : SineWaveReader F)
    (buf : List Nat) (h : buf.length % 4 ≠ 0) :
    ∃ r, Read A s buf = some r ∧ r.n = buf.length ∧ r.err = none ∧
      r.buf.length = buf.length ∧
      (∀ j, 4 * (buf.length / 4) ≤ j → r.buf[j]? = buf[j]?) ∧
      r.buf.drop (4 * (buf.length / 4)) = buf.drop (4 * (buf.length / 4)) ∧
      (buf.drop (4 * (buf.length / 4))).length = buf.length % 4 ∧
      0 < buf.length % 4 := by
  have hc : buf.length / 4 * 4 = 4 * (buf.length / 4) := Nat.mul_comm _ _
  have hfl : (frames A (buf.length / 4) s).length = 4 * (buf.length / 4) := by
    rw [frames_length, hc]
  refine ⟨_, Read_eq A s buf, rfl, rfl, ?_, ?_, ?_, ?_, ?_⟩
  · simp only [List.length_append, hfl, List.length_drop]
    omega
  · intro j hj
    show (frames A (buf.length / 4) s ++ buf.drop (buf.length / 4 * 4))[j]? = buf[j]?
    rw [List.getElem?_append_right (by rw [hfl]; exact hj), hfl, List.getElem?_drop, hc]
    congr 1
    omega
  · show List.drop (4 * (buf.length / 4))
      (frames A (buf.length / 4) s ++ buf.drop (buf.length / 4 * 4)) = _
    rw [List.drop_append_of_le_length (by rw [hfl])]
    rw [List.drop_eq_nil_of_le (by rw [hfl]), List.nil_append, hc]
  · rw [List.length_drop]
    omega
  · omega

/-- A run of C10 on a six-byte buffer. -/
theorem C10_partial_trailing_frame_witness :
    ∃ r, Read realOps ⟨440, 1, 0⟩ [1, 2, 3, 4, 5, 6] = some r ∧
      r.n = [1, 2, 3, 4, 5, 6].length ∧ r.err = none ∧
      r.buf.length = [1, 2, 3, 4, 5, 6].length ∧
      (∀ j, 4 * ([1, 2, 3, 4, 5, 6].length / 4) ≤ j → r.buf[j]? = [1, 2, 3, 4, 5, 6][j]?) ∧
      r.buf.drop (4 * ([1, 2, 3, 4, 5, 6].length / 4))
        = [1, 2, 3, 4, 5, 6].drop (4 * ([1, 2, 3, 4, 5, 6].length / 4)) ∧
      ([1, 2, 3, 4, 5, 6].drop (4 * ([1, 2, 3, 4, 5, 6].length / 4))).length
        = [1, 2, 3, 4, 5, 6].length % 4 ∧
      0 < [1, 2, 3, 4, 5, 6].length % 4 :=
  C10_partial_trailing_frame realOps ⟨440, 1, 0⟩ [1, 2, 3, 4, 5, 6] (by decide)



/-! ## The integer part -/

theorem truncZ_abs_le (x : ℝ) : |((truncZ x : Int) : ℝ)| ≤ |x| := by
  unfold truncZ
  split_ifs with h
  · have h1 : (⌊x⌋ : ℝ) ≤ x := Int.floor_le x
    have h2 : (0 : ℝ) ≤ (⌊x⌋ : ℝ) := by exact_mod_cast Int.floor_nonneg.mpr h
    rw [abs_of_nonneg h2, abs_of_nonneg h]
    exact h1
  · have hx : x < 0 := lt_of_not_ge h
    have h1 : x ≤ (⌈x⌉ : ℝ) := Int.le_ceil x
    have h2 : (⌈x⌉ : ℝ) ≤ 0 := by exact_mod_cast Int.ceil_le.mpr (by exact_mod_cast hx.le)
    rw [abs_of_nonpos h2, abs_of_neg hx]
    linarith

theorem truncZ_dist_lt (x : ℝ) : |x - ((truncZ x : Int) : ℝ)| < 1 := by
  unfold truncZ
  split_ifs with h
  · have h1 : (⌊x⌋ : ℝ) ≤ x := Int.floor_le x
    have h2 : x < (⌊x⌋ : ℝ) + 1 := Int.lt_floor_add_one x
    rw [abs_lt]
    constructor <;> linarith
  · have h1 : x ≤ (⌈x⌉ : ℝ) := Int.le_ceil x
    have h2 : (⌈x⌉ : ℝ) < x + 1 := Int.ceil_lt_add_one x
    rw [abs_lt]
    constructor <;> linarith

/-- The integer part of a number strictly between -32769 and 32768 is an `int16`. -/
theorem truncZ_int16 (x : ℝ) (h1 : -32769 < x) (h2 : x < 32768) :
    -32768 ≤ truncZ x ∧ truncZ x ≤ 32767 := by
  have ha := truncZ_abs_le x
  have hd := abs_lt.mp (truncZ_dist_lt x)
  have hlo : (-32769 : ℝ) < ((truncZ x : Int) : ℝ) := by
    by_cases hx : 0 ≤ x
    · have := abs_le.mp (le_trans ha (le_of_eq (abs_of_nonneg hx)))
      linarith [this.1]
    · have hx2 : x < 0 := lt_of_not_ge hx
      have := abs_le.mp (le_trans ha (le_of_eq (abs_of_neg hx2)))
      linarith [this.1]
  have hhi : ((truncZ x : Int) : ℝ) < 32768 := by
    by_cases hx : 0 ≤ x
    · have := abs_le.mp (le_trans ha (le_of_eq (abs_of_nonneg hx)))
      linarith [this.2]
    · have hx2 : x < 0 := lt_of_not_ge hx
      have := abs_le.mp (le_trans ha (le_of_eq (abs_of_neg hx2)))
      linarith [this.2]
  have hlo2 : (-32769 : Int) < truncZ x := by exact_mod_cast hlo
  have hhi2 : truncZ x < (32768 : Int) := by exact_mod_cast hhi
  constructor <;> omega

/-- Halving commutes with taking the integer part up to one unit, also when the halved
number is off by less than one half. -/
theorem half_truncZ_close (x y : ℝ) (h : |y - x / 2| < 1 / 2) :
    |((truncZ y : Int) : ℝ) - ((truncZ x : Int) : ℝ) / 2| ≤ 1 := by
  have hh := abs_lt.mp h
  have key : (-3 : ℝ) < ((2 * truncZ y - truncZ x : Int) : ℝ) ∧
      ((2 * truncZ y - truncZ x : Int) : ℝ) < 3 := by
    push_cast
    unfold truncZ
    split_ifs with hy hx hx
    · have a1 := Int.floor_le y
      have a2 := Int.lt_floor_add_one y
      have b1 := Int.floor_le x
      have b2 := Int.lt_floor_add_one x
      constructor <;> linarith [hh.1, hh.2]
    · have a1 := Int.floor_le y
      have a2 := Int.lt_floor_add_one y
      have b1 := Int.le_ceil x
      have b2 := Int.ceil_lt_add_one x
      have hx2 : x < 0 := lt_of_not_ge hx
      constructor <;> linarith [hh.1, hh.2]
    · have a1 := Int.le_ceil y
      have a2 := Int.ceil_lt_add_one y
      have b1 := Int.floor_le x
      have b2 := Int.lt_floor_add_one x
      have hy2 : y < 0 := lt_of_not_ge hy
      constructor <;> linarith [hh.1, hh.2]
    · have a1 := Int.le_ceil y
      have a2 := Int.ceil_lt_add_one y
      have b1 := Int.le_ceil x
      have b2 := Int.ceil_lt_add_one x
      constructor <;> linarith [hh.1, hh.2]
  have hl2 : -3 < 2 * truncZ y - truncZ x := by exact_mod_cast key.1
  have hu2 : 2 * truncZ y - truncZ x < 3 := by exact_mod_cast key.2
  have hl3 : -2 ≤ 2 * truncZ y - truncZ x := by omega
  have hu3 : 2 * truncZ y - truncZ x ≤ 2 := by omega
  have hl4 : (-2 : ℝ) ≤ ((2 * truncZ y - truncZ x : Int) : ℝ) := by exact_mod_cast hl3
  have hu4 : ((2 * truncZ y - truncZ x : Int) : ℝ) ≤ 2 := by exact_mod_cast hu3
  push_cast at hl4 hu4
  rw [abs_le]
  constructor <;> linarith

/-! ## Consequences of the `float64` laws -/

/-- Rounding does not cross an integer that is a `float64` value. -/
theorem rnd_abs_le_nat {F : Type} {A : FloatOps F} (L : Float64Laws A) (x : ℝ) (n : Nat)
    (hn : n ≤ 2 ^ 53) (h : |x| ≤ (n : ℝ)) : |L.rnd x| ≤ (n : ℝ) := by
  have hx := abs_le.mp h
  have h1 := L.rnd_mono _ _ hx.1
  have h2 := L.rnd_mono _ _ hx.2
  rw [L.rnd_neg, L.rnd_nat n hn] at h1
  rw [L.rnd_nat n hn] at h2
  exact abs_le.mpr ⟨h1, h2⟩

/-- A coarse bound on a rounded number. -/
theorem rnd_abs_le_double {F : Type} {A : FloatOps F} (L : Float64Laws A) (x : ℝ) :
    |L.rnd x| ≤ 2 * |x| + 1 := by
  have he := L.rnd_err x
  have h1 : |L.rnd x| ≤ |L.rnd x - x| + |x| := by
    have := abs_add (L.rnd x - x) x
    simpa using this
  have h2 : |x| / 2 ^ 53 ≤ |x| := div_le_self (abs_nonneg x) (by norm_num)
  have h3 : (1 : ℝ) / 2 ^ 1075 ≤ 1 := by
    apply div_le_one_of_le₀ _ (by positivity)
    exact one_le_pow₀ (by norm_num)
  linarith

/-- The rounding error of a number of magnitude at most 32767. -/
theorem rnd_err_small {F : Type} {A : FloatOps F} (L : Float64Laws A) (x : ℝ)
    (h : |x| ≤ 32767) : |L.rnd x - x| ≤ 1 / 2 ^ 37 := by
  have he := L.rnd_err x
  have h1 : |x| / 2 ^ 53 ≤ 32767 / 2 ^ 53 := div_le_div_of_nonneg_right h (by positivity)
  have h2 : (32767 : ℝ) / 2 ^ 53 + 1 / 2 ^ 1075 ≤ 1 / 2 ^ 37 := by norm_num
  linarith

/-- The rounding error of a number of magnitude at most 1. -/
theorem rnd_err_unit {F : Type} {A : FloatOps F} (L : Float64Laws A) (x : ℝ)
    (h : |x| ≤ 1) : |L.rnd x - x| ≤ 1 / 2 ^ 52 := by
  have he := L.rnd_err x
  have h1 : |x| / 2 ^ 53 ≤ 1 / 2 ^ 53 := div_le_div_of_nonneg_right h (by positivity)
  have h2 : (1 : ℝ) / 2 ^ 53 + 1 / 2 ^ 1075 ≤ 1 / 2 ^ 52 := by norm_num
  linarith

/-- The argument of `math.Sin` is a finite value for every finite frequency of magnitude
at most `2^950` and every `int64` position. -/
theorem sinArg_finite {F : Type} {A : FloatOps F} (L : Float64Laws A) (freq : F) (pos : Int)
    (φ : ℝ) (hf : L.toReal freq = some φ) (hφ : |φ| ≤ 2 ^ 950) (hlo : -2 ^ 63 ≤ pos)
    (hhi : pos < 2 ^ 63) : ∃ θ : ℝ, L.toReal (sinArg A freq pos) = some θ := by
  obtain ⟨t, ht, ht6, ht7⟩ := L.twoPi_val
  have hta : |t| ≤ 7 := abs_le.mpr ⟨by linarith, by linarith⟩
  have h1 : |t * φ| ≤ 7 * 2 ^ 950 := by
    rw [abs_mul]
    exact mul_le_mul hta hφ (abs_nonneg _) (by norm_num)
  have m1 := L.mul_val A.twoPi freq t φ ht hf (le_trans h1 (by norm_num))
  have hm1 : |L.rnd (t * φ)| ≤ 2 ^ 954 := by
    have := rnd_abs_le_double L (t * φ)
    have h2 : (2 : ℝ) * (7 * 2 ^ 950) + 1 ≤ 2 ^ 954 := by norm_num
    linarith
  have hp : |((pos : Int) : ℝ)| ≤ 2 ^ 63 := by
    rw [abs_le]
    constructor
    · exact_mod_cast hlo
    · exact_mod_cast hhi.le
  have p1 := L.ofInt64_val pos hlo hhi
  have hp1 : |L.rnd (pos : ℝ)| ≤ 2 ^ 65 := by
    have := rnd_abs_le_double L (pos : ℝ)
    have h2 : (2 : ℝ) * 2 ^ 63 + 1 ≤ 2 ^ 65 := by norm_num
    linarith
  have h3 : |L.rnd (t * φ) * L.rnd (pos : ℝ)| ≤ 2 ^ 954 * 2 ^ 65 := by
    rw [abs_mul]
    exact mul_le_mul hm1 hp1 (abs_nonneg _) (by positivity)
  have m2 := L.mul_val _ _ _ _ m1 p1 (le_trans h3 (by norm_num))
  have hm2 : |L.rnd (L.rnd (t * φ) * L.rnd (pos : ℝ))| ≤ 2 ^ 1021 := by
    have := rnd_abs_le_double L (L.rnd (t * φ) * L.rnd (pos : ℝ))
    have h2 : (2 : ℝ) * (2 ^ 954 * 2 ^ 65) + 1 ≤ 2 ^ 1021 := by norm_num
    linarith
  have hr := L.ofNat_val sampleRate (by norm_num [sampleRate])
  have hne : ((sampleRate : Nat) : ℝ) ≠ 0 := by norm_num [sampleRate]
  have h4 : |L.rnd (L.rnd (t * φ) * L.rnd (pos : ℝ)) / ((sampleRate : Nat) : ℝ)| ≤ 2 ^ 1023 := by
    rw [abs_div]
    have hs : (1 : ℝ) ≤ |((sampleRate : Nat) : ℝ)| := by norm_num [sampleRate]
    have hd : |L.rnd (L.rnd (t * φ) * L.rnd (pos : ℝ))| / |((sampleRate : Nat) : ℝ)|
        ≤ |L.rnd (L.rnd (t * φ) * L.rnd (pos : ℝ))| :=
      div_le_self (abs_nonneg _) hs
    have h2 : (2 : ℝ) ^ 1021 ≤ 2 ^ 1023 := by norm_num
    linarith
  exact ⟨_, L.div_val _ _ _ _ m2 hr hne h4⟩

/-- The operand of the conversion, for a finite volume of magnitude at most 1 and a
finite sine value: the product is rounded twice and stays within `[-32767, 32767]`. -/
theorem amplitude_val {F : Type} {A : FloatOps F} (L : Float64Laws A) (s : SineWaveReader F)
    (v y : ℝ) (hv : L.toReal s.volume = some v) (hv1 : |v| ≤ 1)
    (hy : L.toReal (A.sin (sinArg A s.freq s.pos)) = some y) (hy1 : |y| ≤ 1) :
    L.toReal (amplitude A s) = some (L.rnd (L.rnd (v * y) * 32767)) ∧
      |L.rnd (v * y)| ≤ 1 ∧ |L.rnd (L.rnd (v * y) * 32767)| ≤ 32767 := by
  have h1 : |v * y| ≤ 1 := by
    rw [abs_mul]
    have := mul_le_mul hv1 hy1 (abs_nonneg _) (by norm_num : (0 : ℝ) ≤ 1)
    linarith
  have m1 : L.toReal (sample A s) = some (L.rnd (v * y)) :=
    L.mul_val _ _ _ _ hv hy (le_trans h1 (by norm_num))
  have ha : |L.rnd (v * y)| ≤ 1 := by
    have := rnd_abs_le_nat L (v * y) 1 (by norm_num) (by simpa using h1)
    simpa using this
  have hc := L.ofNat_val maxInt16 (by norm_num [maxInt16])
  have hcv : ((maxInt16 : Nat) : ℝ) = 32767 := by norm_num [maxInt16]
  rw [hcv] at hc
  have h2 : |L.rnd (v * y) * 32767| ≤ 32767 := by
    rw [abs_mul]
    have h32 : |(32767 : ℝ)| = 32767 := abs_of_nonneg (by norm_num)
    rw [h32]
    nlinarith [abs_nonneg (L.rnd (v * y))]
  have m2 : L.toReal (amplitude A s) = some (L.rnd (L.rnd (v * y) * 32767)) :=
    L.mul_val _ _ _ _ m1 hc (le_trans h2 (by norm_num))
  refine ⟨m2, ha, ?_⟩
  have := rnd_abs_le_nat L (L.rnd (v * y) * 32767) 32767 (by norm_num) (by simpa using h2)
  simpa using this

/-- The value `val`, where the operand of the conversion is finite with its integer part
in the `int16` range: the integer part, not wrapped. -/
theorem val_of_amplitude {F : Type} {A : FloatOps F} (V : Float64Value A)
    (s : SineWaveReader F) (x : ℝ) (hx : V.toReal (amplitude A s) = some x)
    (h1 : -32769 < x) (h2 : x < 32768) :
    A.trunc (amplitude A s) = truncZ x ∧ val A s = truncZ x := by
  have ht := V.trunc_val _ x hx h1 h2
  have hr := truncZ_int16 x h1 h2
  refine ⟨ht, ?_⟩
  show wrapInt16 (A.trunc (amplitude A s)) = truncZ x
  rw [ht]
  exact wrapInt16_of_range _ (by norm_num; exact hr.1) (by norm_num; omega)

/-! ## Exact real arithmetic -/

theorem val_realOps (t : SineWaveReader ℝ) :
    val realOps t = wrapInt16 (realOps.trunc (scaledAmplitude t.freq t.volume t.pos)) := by
  simp [val, sample, realOps, scaledAmplitude, sampleRate, maxInt16]

/-- The value that `Read` writes for sample pair `k`, decoded from either channel. -/
theorem Read_sample {F : Type} (A : FloatOps F) (s : SineWaveReader F) (buf : List Nat)
    (k : Nat) (hk : k < buf.length / 4) :
    ∃ r, Read A s buf = some r ∧ leftSample r.buf k = val A (advance k s) ∧
      rightSample r.buf k = val A (advance k s) := by
  refine ⟨_, Read_eq A s buf, ?_⟩
  have g0 := frames_append_getD A (buf.length / 4) s (buf.drop (buf.length / 4 * 4)) k 0 hk
    (by decide)
  have g1 := frames_append_getD A (buf.length / 4) s (buf.drop (buf.length / 4 * 4)) k 1 hk
    (by decide)
  have g2 := frames_append_getD A (buf.length / 4) s (buf.drop (buf.length / 4 * 4)) k 2 hk
    (by decide)
  have g3 := frames_append_getD A (buf.length / 4) s (buf.drop (buf.length / 4 * 4)) k 3 hk
    (by decide)
  simp only [frame, Nat.add_zero, List.getD_cons_zero, List.getD_cons_succ] at g0 g1 g2 g3
  have hr := val_range A (advance k s)
  have hd := decodeInt16_bytes (val A (advance k s)) hr.1 hr.2
  simp only [leftSample, rightSample, g0, g1, g2, g3, hd, and_self]

/-- Below the `int64` wrap-around point the state of sample pair `k` has position
`pos + k`. -/
theorem advance_eq {F : Type} (s : SineWaveReader F) (k : Nat) (hlo : -2 ^ 63 ≤ s.pos)
    (hhi : s.pos + (k : Int) < 2 ^ 63) :
    advance k s = ⟨s.freq, s.volume, s.pos + (k : Int)⟩ := by
  have h1 := advance_freq k s
  have h2 := advance_volume k s
  have h3 := advance_pos k s hlo hhi
  cases h : advance k s with
  | mk f v p =>
    rw [h] at h1 h2 h3
    simp only at h1 h2 h3
    rw [h1, h2, h3]

/-- In exact arithmetic and below the `int64` wrap-around point, the value of sample
pair `k` is the wrapped integer part of the scaled amplitude at index `pos + k`. -/
theorem val_advance_realOps (s : SineWaveReader ℝ) (k : Nat) (hlo : -2 ^ 63 ≤ s.pos)
    (hhi : s.pos + (k : Int) < 2 ^ 63) :
    val realOps (advance k s)
      = wrapInt16 (realOps.trunc (scaledAmplitude s.freq s.volume (s.pos + (k : Int)))) := by
  rw [val_realOps, advance_freq, advance_volume, advance_pos k s hlo hhi]

theorem scaledAmplitude_quarter :
    scaledAmplitude 11025 (1 / 50000) (1 + ((0 : Nat) : Int)) = 32767 / 50000 := by
  unfold scaledAmplitude
  have h : 2 * Real.pi * 11025 * (((1 + ((0 : Nat) : Int) : Int)) : ℝ) / 44100
      = Real.pi / 2 := by
    push_cast
    ring
  rw [h, Real.sin_pi_div_two]
  norm_num

/-! ## Exact real arithmetic with a NaN -/

theorem amplitude_nanRealOps (f v : ℝ) (p : Int) :
    amplitude nanRealOps ⟨some f, some v, p⟩ = some (scaledAmplitude f v p) := by
  simp [amplitude, sample, nanRealOps, scaledAmplitude, sampleRate, maxInt16]

/-! ## Two runs in exact real arithmetic -/

theorem trunc_intCast (z : Int) : realOps.trunc (z : ℝ) = z := by
  show (if (0 : ℝ) ≤ (z : ℝ) then ⌊(z : ℝ)⌋ else ⌈(z : ℝ)⌉) = z
  split_ifs <;> simp

/-- At phase 0 the sample pair is `(0, 0)`; the two trailing bytes of a six-byte buffer
stay as they were and 6 is returned. -/
theorem Read_phase_zero :
    Read realOps ⟨440, 1, 0⟩ [1, 2, 3, 4, 5, 6]
      = some { buf := [0, 0, 0, 0, 5, 6], n := 6, err := none, state := ⟨440, 1, 1⟩ } := by
  rw [Read_eq]
  have hv : val realOps ⟨440, 1, 0⟩ = 0 := by
    rw [val_realOps]
    have h : scaledAmplitude 440 1 0 = ((0 : Int) : ℝ) := by simp [scaledAmplitude]
    show wrapInt16 (realOps.trunc (scaledAmplitude 440 1 0)) = 0
    rw [h, trunc_intCast]
    decide
  have hp : wrapInt64 1 = 1 := by decide
  simp [frames, frame, advance, incPos, hv, hp, byte]

/-- At 11025 Hz and full volume, phase 1 is a quarter period: the sample is 32767,
written as `FF 7F` on both channels. -/
theorem Read_quarter_period :
    Read realOps ⟨11025, 1, 1⟩ [7, 7, 7, 7]
      = some { buf := [255, 127, 255, 127], n := 4, err := none, state := ⟨11025, 1, 2⟩ } := by
  rw [Read_eq]
  have hv : val realOps ⟨11025, 1, 1⟩ = 32767 := by
    rw [val_realOps]
    have h : scaledAmplitude 11025 1 1 = ((32767 : Int) : ℝ) := by
      unfold scaledAmplitude
      have e : 2 * Real.pi * 11025 * (((1 : Int)) : ℝ) / 44100 = Real.pi / 2 := by
        push_cast
        ring
      rw [e, Real.sin_pi_div_two]
      norm_num
    show wrapInt16 (realOps.trunc (scaledAmplitude 11025 1 1)) = 32767
    rw [h, trunc_intCast]
    decide
  have hp : wrapInt64 2 = 2 := by decide
  have hb : byte 32767 = 255 := by decide
  have hb2 : byte ((32767 : Int) >>> (8 : Nat)) = 127 := by decide
  simp [frames, frame, advance, incPos, hv, hp, hb, hb2]

/-- Startup: `main` calls `oto.NewContext` exactly when none of its four comparisons
holds. -/
theorem main_deviceOpened {F : Type} (A : FloatOps F) (freq volume : F)
    (ctxErr : Option String) (h : (main A freq volume ctxErr).deviceOpened = true) :
    A.lt volume (A.ofNat 0) = false ∧ A.lt (A.ofNat 1) volume = false ∧
      A.lt freq (A.ofNat 1) = false ∧ A.lt (A.ofNat 20000) freq = false := by
  revert h
  unfold main
  cases hv0 : A.lt volume (A.ofNat 0) <;> cases hv1 : A.lt (A.ofNat 1) volume <;>
    cases hf0 : A.lt freq (A.ofNat 1) <;> cases hf1 : A.lt (A.ofNat 20000) freq <;>
    cases ctxErr <;> simp

/-- A finite configuration that `main` accepts has its volume in `[0, 1]` and its
frequency in `[1, 20000]`. -/
theorem main_validated {F : Type} {A : FloatOps F} (L : Float64Laws A) (freq volume : F)
    (ctxErr : Option String) (φ v : ℝ) (hf : L.toReal freq = some φ)
    (hv : L.toReal volume = some v)
    (h : (main A freq volume ctxErr).deviceOpened = true) :
    (0 ≤ v ∧ v ≤ 1) ∧ (1 ≤ φ ∧ φ ≤ 20000) := by
  obtain ⟨h1, h2, h3, h4⟩ := main_deviceOpened A freq volume ctxErr h
  have c0 := L.ofNat_val 0 (by norm_num)
  have c1 := L.ofNat_val 1 (by norm_num)
  have c2 := L.ofNat_val 20000 (by norm_num)
  have e1 := L.lt_val _ _ _ _ hv c0
  have e2 := L.lt_val _ _ _ _ c1 hv
  have e3 := L.lt_val _ _ _ _ hf c1
  have e4 := L.lt_val _ _ _ _ c2 hf
  rw [h1] at e1
  rw [h2] at e2
  rw [h3] at e3
  rw [h4] at e4
  push_cast at e1 e2 e3 e4
  refine ⟨⟨?_, ?_⟩, ?_, ?_⟩
  · exact not_lt.mp (fun hc => absurd (e1.mpr hc) (by simp))
  · exact not_lt.mp (fun hc => absurd (e2.mpr hc) (by simp))
  · exact not_lt.mp (fun hc => absurd (e3.mpr hc) (by simp))
  · exact not_lt.mp (fun hc => absurd (e4.mpr hc) (by simp))

/-- The sample written for pair `k`, where the operand of the conversion is finite with
its integer part in the `int16` range. -/
theorem Read_sample_truncZ {F : Type} (A : FloatOps F) (V : Float64Value A)
    (s : SineWaveReader F) (buf : List Nat) (k : Nat) (x : ℝ) (hk : k < buf.length / 4)
    (hlo : -2 ^ 63 ≤ s.pos) (hhi : s.pos + (k : Int) < 2 ^ 63)
    (hx : V.toReal (amplitude A ⟨s.freq, s.volume, s.pos + (k : Int)⟩) = some x)
    (h1 : -32769 < x) (h2 : x < 32768) :
    ∃ r, Read A s buf = some r ∧ leftSample r.buf k = truncZ x ∧
      rightSample r.buf k = truncZ x := by
  obtain ⟨r, hr, hl, hrt⟩ := Read_sample A s buf k hk
  rw [advance_eq s k hlo hhi] at hl hrt
  have hv := (val_of_amplitude V _ x hx h1 h2).2
  exact ⟨r, hr, by rw [hl, hv], by rw [hrt, hv]⟩

/-! ## The numeric claims -/

/-- C3, as stated, fails: at 11025 Hz, volume 0.00002 and phase 1 the scaled amplitude
is 0.65534, which rounds to 1, while `Read` writes the value 0. -/
theorem C3_round_counterexample :
    ∃ r, Read realOps ⟨11025, 1 / 50000, 1⟩ [0, 0, 0, 0] = some r ∧
      leftSample r.buf 0 = 0 ∧
      round ((1 / 50000 : ℝ) *
        Real.sin (2 * Real.pi * 11025 * (((1 + ((0 : Nat) : Int) : Int)) : ℝ) / 44100)
          * 32767) = 1 := by
  obtain ⟨r, hr, hl, _⟩ :=
    Read_sample realOps ⟨11025, 1 / 50000, 1⟩ [0, 0, 0, 0] 0 (by decide)
  have hv := val_advance_realOps ⟨11025, 1 / 50000, 1⟩ 0 (by norm_num) (by norm_num)
  have hq := scaledAmplitude_quarter
  refine ⟨r, hr, ?_, ?_⟩
  · rw [hl, hv]
    show wrapInt16 (realOps.trunc (scaledAmplitude 11025 (1 / 50000) (1 + ((0 : Nat) : Int))))
      = 0
    rw [hq]
    have ht : realOps.trunc (32767 / 50000 : ℝ) = 0 := by
      show (if (0 : ℝ) ≤ 32767 / 50000 then ⌊(32767 / 50000 : ℝ)⌋ else ⌈(32767 / 50000 : ℝ)⌉)
        = 0
      rw [if_pos (by norm_num)]
      rw [Int.floor_eq_iff]
      constructor <;> norm_num
    rw [ht]
    decide
  · unfold scaledAmplitude at hq
    rw [hq, round_eq, Int.floor_eq_iff]
    constructor <;> norm_num

/-- C3, amended. For every generator state with phase `p` below the `int64` wrap-around
point and every `k < len(buf)/4`: if the `float64` value `x` that the program computes
for `volume * sin(2π * freq * (p+k) / 44100) * 32767` is finite and its integer part fits
an `int16`, then the 16-bit value written for sample pair `k` (on both channels) is `x`
with its fraction discarded, `⌊x⌋` for `x ≥ 0` and `⌈x⌉` for `x < 0`. This holds for every
arithmetic whose float-to-integer conversion follows the Go specification. -/
theorem C3_sample_value_truncated {F : Type} (A : FloatOps F) (V : Float64Value A)
    (s : SineWaveReader F) (buf : List Nat) (k : Nat) (x : ℝ) (hk : k < buf.length / 4)
    (hlo : -2 ^ 63 ≤ s.pos) (hhi : s.pos + (k : Int) < 2 ^ 63)
    (hx : V.toReal (amplitude A ⟨s.freq, s.volume, s.pos + (k : Int)⟩) = some x)
    (h1 : -32769 < x) (h2 : x < 32768) :
    ∃ r, Read A s buf = some r ∧
      leftSample r.buf k = (if 0 ≤ x then ⌊x⌋ else ⌈x⌉) ∧
      rightSample r.buf k = leftSample r.buf k := by
  obtain ⟨r, hr, hl, hrt⟩ := Read_sample_truncZ A V s buf k x hk hlo hhi hx h1 h2
  exact ⟨r, hr, hl, by rw [hl, hrt]⟩

/-- A run of the amended C3 at 11025 Hz, volume 0.00002 and phase 1, where the computed
amplitude is 0.65534: the value written is 0. -/
theorem C3_sample_value_truncated_witness :
    ∃ r, Read nanRealOps ⟨some 11025, some (1 / 50000), 1⟩ [0, 0, 0, 0] = some r ∧
      leftSample r.buf 0
        = (if (0 : ℝ) ≤ 32767 / 50000 then ⌊(32767 / 50000 : ℝ)⌋ else ⌈(32767 / 50000 : ℝ)⌉) ∧
      rightSample r.buf 0 = leftSample r.buf 0 :=
  C3_sample_value_truncated nanRealOps nanRealValue ⟨some 11025, some (1 / 50000), 1⟩
    [0, 0, 0, 0] 0 (32767 / 50000) (by decide) (by norm_num) (by norm_num)
    (by
      show amplitude nanRealOps ⟨some 11025, some (1 / 50000), 1 + ((0 : Nat) : Int)⟩
        = some (32767 / 50000)
      rw [amplitude_nanRealOps, scaledAmplitude_quarter])
    (by norm_num) (by norm_num)

/-- C7. Volume scaling: for every finite frequency (of magnitude up to `2^950`, which
keeps the sine's argument finite), every `int64` phase and every volume `v` in `[0,1]`,
the 16-bit sample produced at volume `v/2` differs from half of the 16-bit sample produced
at volume `v` by at most 1. This holds for every arithmetic obeying the `float64` laws,
with every operation rounded. -/
theorem C7_volume_halving {F : Type} (A : FloatOps F) (L : Float64Laws A)
    (freq vol half : F) (p : Int) (φ v : ℝ)
    (hf : L.toReal freq = some φ) (hφ : |φ| ≤ 2 ^ 950)
    (hp1 : -2 ^ 63 ≤ p) (hp2 : p < 2 ^ 63)
    (hv : L.toReal vol = some v) (hh : L.toReal half = some (v / 2))
    (h0 : 0 ≤ v) (h1 : v ≤ 1) :
    |((val A ⟨freq, half, p⟩ : Int) : ℝ) - ((val A ⟨freq, vol, p⟩ : Int) : ℝ) / 2| ≤ 1 := by
  obtain ⟨θ, hθ⟩ := sinArg_finite L freq p φ hf hφ hp1 hp2
  obtain ⟨y, hy, hy1⟩ := L.sin_val _ θ hθ
  have hva : |v| ≤ 1 := abs_le.mpr ⟨by linarith, h1⟩
  have hva2 : |v / 2| ≤ 1 := abs_le.mpr ⟨by linarith, by linarith⟩
  obtain ⟨ax, aa, ab⟩ := amplitude_val L ⟨freq, vol, p⟩ v y hv hva hy hy1
  obtain ⟨bx, ba, bb⟩ := amplitude_val L ⟨freq, half, p⟩ (v / 2) y hh hva2 hy hy1
  have hvy : |v * y| ≤ 1 := by
    rw [abs_mul]
    have := mul_le_mul hva hy1 (abs_nonneg _) (by norm_num : (0 : ℝ) ≤ 1)
    linarith
  have hvy2 : |v / 2 * y| ≤ 1 := by
    rw [abs_mul]
    have := mul_le_mul hva2 hy1 (abs_nonneg _) (by norm_num : (0 : ℝ) ≤ 1)
    linarith
  have e1 := abs_le.mp (rnd_err_unit L (v * y) hvy)
  have e2 := abs_le.mp (rnd_err_unit L (v / 2 * y) hvy2)
  have hm1 : |L.rnd (v * y) * 32767| ≤ 32767 := by
    rw [abs_mul, abs_of_nonneg (by norm_num : (0 : ℝ) ≤ 32767)]
    nlinarith [abs_nonneg (L.rnd (v * y))]
  have hm2 : |L.rnd (v / 2 * y) * 32767| ≤ 32767 := by
    rw [abs_mul, abs_of_nonneg (by norm_num : (0 : ℝ) ≤ 32767)]
    nlinarith [abs_nonneg (L.rnd (v / 2 * y))]
  have e3 := abs_le.mp (rnd_err_small L _ hm1)
  have e4 := abs_le.mp (rnd_err_small L _ hm2)
  have c1 : (1 : ℝ) / 2 ^ 52 = 1 / 4503599627370496 := by norm_num
  have c2 : (1 : ℝ) / 2 ^ 37 = 1 / 137438953472 := by norm_num
  rw [c1] at e1 e2
  rw [c2] at e3 e4
  have hclose : |L.rnd (L.rnd (v / 2 * y) * 32767) - L.rnd (L.rnd (v * y) * 32767) / 2|
      < 1 / 2 := by
    rw [abs_lt]
    constructor <;> linarith [e1.1, e1.2, e2.1, e2.2, e3.1, e3.2, e4.1, e4.2]
  have r1 := abs_le.mp ab
  have r2 := abs_le.mp bb
  have v1 := (val_of_amplitude L.toFloat64Value ⟨freq, vol, p⟩ _ ax (by linarith [r1.1])
    (by linarith [r1.2])).2
  have v2 := (val_of_amplitude L.toFloat64Value ⟨freq, half, p⟩ _ bx (by linarith [r2.1])
    (by linarith [r2.2])).2
  rw [v1, v2]
  exact half_truncZ_close _ _ hclose

/-- A run of C7 at 440 Hz, phase 25 and full volume. -/
theorem C7_volume_halving_witness :
    |((val nanRealOps ⟨some 440, some (1 / 2), 25⟩ : Int) : ℝ)
      - ((val nanRealOps ⟨some 440, some 1, 25⟩ : Int) : ℝ) / 2| ≤ 1 :=
  C7_volume_halving nanRealOps nanRealLaws (some 440) (some 1) (some (1 / 2)) 25 440 1 rfl
    (by rw [abs_of_nonneg] <;> norm_num) (by norm_num) (by norm_num) rfl rfl (by norm_num)
    (by norm_num)

theorem truncZ_intCast (z : Int) : truncZ (z : ℝ) = z := by
  unfold truncZ
  split_ifs <;> simp

theorem scaledAmplitude_quarter_full (v : ℝ) : scaledAmplitude 11025 v 1 = v * 32767 := by
  unfold scaledAmplitude
  have h : 2 * Real.pi * 11025 * (((1 : Int)) : ℝ) / 44100 = Real.pi / 2 := by
    push_cast
    ring
  rw [h, Real.sin_pi_div_two]
  ring

/-- C8, as stated, fails twice. A NaN frequency passes the comparisons of `main` together
with the volume 1/2, and the operand of the `int16` conversion is then a NaN, which is in
no interval. And at 11025 Hz, phase 1 the volume -2, which is not above 1, gives the
amplitude -65534, outside `[-32767, 32767]`; the sample written is the wrapped value 2. -/
theorem C8_overflow_counterexample :
    ((main nanRealOps none (some (1 / 2)) none).deviceOpened = true ∧
      amplitude nanRealOps ⟨none, some (1 / 2), 0⟩ = none) ∧
    (amplitude nanRealOps ⟨some 11025, some (-2), 1⟩ = some (-65534) ∧
      ¬ ((1 : ℝ) < -2) ∧
      ∃ r, Read nanRealOps ⟨some 11025, some (-2), 1⟩ [0, 0, 0, 0] = some r ∧
        leftSample r.buf 0 = 2) := by
  have ha : amplitude nanRealOps ⟨some 11025, some (-2), 1⟩ = some (-65534) := by
    rw [amplitude_nanRealOps, scaledAmplitude_quarter_full]
    norm_num
  refine ⟨⟨?_, rfl⟩, ha, by norm_num, ?_⟩
  · norm_num [main, nanRealOps]
  · obtain ⟨r, hr, hl, _⟩ :=
      Read_sample nanRealOps ⟨some 11025, some (-2), 1⟩ [0, 0, 0, 0] 0 (by decide)
    refine ⟨r, hr, ?_⟩
    rw [hl]
    show wrapInt16 (nanRealOps.trunc (amplitude nanRealOps ⟨some 11025, some (-2), 1⟩)) = 2
    rw [ha]
    show wrapInt16 (truncZ (-65534 : ℝ)) = 2
    have hz : truncZ (-65534 : ℝ) = -65534 := by
      have := truncZ_intCast (-65534)
      push_cast at this
      exact this
    rw [hz]
    decide

/-- C8, amended. For every configuration with a finite volume and a finite frequency
that `main` accepts (volume in `[0, 1]`, frequency in `[1, 20000]`), and more generally
whenever the volume has magnitude at most 1 and the frequency magnitude at most `2^950`,
for every phase below the `int64` wrap-around point: the `float64` value `x` computed for
`volume * sin(2π * freq * pos / 44100) * 32767` is finite and lies in `[-32767, 32767]`,
so the `int16` conversion in `Read` is applied to an in-range value and the sample written
(on both channels) is the integer part of `x`, not wrapped, itself in `[-32767, 32767]`.
This holds for every arithmetic obeying the `float64` laws. -/
theorem C8_no_int16_overflow {F : Type} (A : FloatOps F) (L : Float64Laws A)
    (s : SineWaveReader F) (buf : List Nat) (k : Nat) (φ v : ℝ) (ctxErr : Option String)
    (hk : k < buf.length / 4) (hlo : -2 ^ 63 ≤ s.pos) (hhi : s.pos + (k : Int) < 2 ^ 63)
    (hf : L.toReal s.freq = some φ) (hv : L.toReal s.volume = some v)
    (hcfg : (main A s.freq s.volume ctxErr).deviceOpened = true ∨
      (|v| ≤ 1 ∧ |φ| ≤ 2 ^ 950)) :
    ∃ x r, L.toReal (amplitude A ⟨s.freq, s.volume, s.pos + (k : Int)⟩) = some x ∧
      (-32767 ≤ x ∧ x ≤ 32767) ∧
      A.trunc (amplitude A ⟨s.freq, s.volume, s.pos + (k : Int)⟩) = truncZ x ∧
      (-32767 ≤ truncZ x ∧ truncZ x ≤ 32767) ∧
      Read A s buf = some r ∧ leftSample r.buf k = truncZ x ∧
      rightSample r.buf k = truncZ x := by
  have hb : |v| ≤ 1 ∧ |φ| ≤ 2 ^ 950 := by
    rcases hcfg with h | h
    · obtain ⟨⟨a1, a2⟩, b1, b2⟩ := main_validated L s.freq s.volume ctxErr φ v hf hv h
      refine ⟨abs_le.mpr ⟨by linarith, a2⟩, abs_le.mpr ⟨by linarith, ?_⟩⟩
      have : (20000 : ℝ) ≤ 2 ^ 950 := by norm_num
      linarith
    · exact h
  have hlo2 : -2 ^ 63 ≤ s.pos + (k : Int) := by
    have : (0 : Int) ≤ (k : Int) := Int.ofNat_nonneg k
    omega
  obtain ⟨θ, hθ⟩ := sinArg_finite L s.freq (s.pos + (k : Int)) φ hf hb.2 hlo2 hhi
  obtain ⟨y, hy, hy1⟩ := L.sin_val _ θ hθ
  obtain ⟨ax, _, ab⟩ :=
    amplitude_val L ⟨s.freq, s.volume, s.pos + (k : Int)⟩ v y hv hb.1 hy hy1
  have r1 := abs_le.mp ab
  have hx1 : (-32769 : ℝ) < L.rnd (L.rnd (v * y) * 32767) := by linarith [r1.1]
  have hx2 : L.rnd (L.rnd (v * y) * 32767) < 32768 := by linarith [r1.2]
  obtain ⟨r, hr, hl, hrt⟩ :=
    Read_sample_truncZ A L.toFloat64Value s buf k _ hk hlo hhi ax hx1 hx2
  have ht := abs_le.mp (le_trans (truncZ_abs_le (L.rnd (L.rnd (v * y) * 32767))) ab)
  refine ⟨_, r, ax, r1, (val_of_amplitude L.toFloat64Value _ _ ax hx1 hx2).1, ⟨?_, ?_⟩, hr,
    hl, hrt⟩
  · exact_mod_cast ht.1
  · exact_mod_cast ht.2

/-- A run of the amended C8 on a configuration that `main` accepts: 440 Hz at volume
1/2, phase 25. -/
theorem C8_no_int16_overflow_witness :
    (main nanRealOps (some 440) (some (1 / 2)) none).deviceOpened = true ∧
    ∃ x r, amplitude nanRealOps ⟨some 440, some (1 / 2), 25 + ((0 : Nat) : Int)⟩ = some x ∧
      (-32767 ≤ x ∧ x ≤ 32767) ∧
      nanRealOps.trunc (amplitude nanRealOps ⟨some 440, some (1 / 2), 25 + ((0 : Nat) : Int)⟩)
        = truncZ x ∧
      (-32767 ≤ truncZ x ∧ truncZ x ≤ 32767) ∧
      Read nanRealOps ⟨some 440, some (1 / 2), 25⟩ [0, 0, 0, 0] = some r ∧
      leftSample r.buf 0 = truncZ x ∧ rightSample r.buf 0 = truncZ x := by
  have hm : (main nanRealOps (some 440) (some (1 / 2)) none).deviceOpened = true := by
    norm_num [main, nanRealOps]
  exact ⟨hm, C8_no_int16_overflow nanRealOps nanRealLaws ⟨some 440, some (1 / 2), 25⟩
    [0, 0, 0, 0] 0 440 (1 / 2) none (by decide) (by norm_num) (by norm_num) rfl rfl
    (Or.inl hm)⟩

/-- C9. The conversion truncates: for every state with phase `p` below the `int64`
wrap-around point and every `k < len(buf)/4`, if the scaled amplitude `x`, the `float64`
value that the program computes for `volume * sin(2π * freq * (p+k) / 44100) * 32767` and
hands to the conversion, is finite with its integer part in the `int16` range, then the
sample written by `Read` is `x` truncated toward zero (`⌊x⌋` when `x ≥ 0`, `⌈x⌉` when
`x < 0`), on both channels; hence `|sample| ≤ |x|` and `|x - sample| < 1`, and the sample
is not `x` rounded to nearest wherever `x` is more than one half away from it. This holds
for every arithmetic whose float-to-integer conversion follows the Go specification. -/
theorem C9_conversion_truncates {F : Type} (A : FloatOps F) (V : Float64Value A)
    (s : SineWaveReader F) (buf : List Nat) (k : Nat) (x : ℝ) (hk : k < buf.length / 4)
    (hlo : -2 ^ 63 ≤ s.pos) (hhi : s.pos + (k : Int) < 2 ^ 63)
    (hx : V.toReal (amplitude A ⟨s.freq, s.volume, s.pos + (k : Int)⟩) = some x)
    (h1 : -32769 < x) (h2 : x < 32768) :
    ∃ r, Read A s buf = some r ∧
      (0 ≤ x → leftSample r.buf k = ⌊x⌋) ∧
      (x < 0 → leftSample r.buf k = ⌈x⌉) ∧
      rightSample r.buf k = leftSample r.buf k ∧
      |((leftSample r.buf k : Int) : ℝ)| ≤ |x| ∧
      |x - ((leftSample r.buf k : Int) : ℝ)| < 1 ∧
      (1 / 2 < |x - ((leftSample r.buf k : Int) : ℝ)| → leftSample r.buf k ≠ round x) := by
  obtain ⟨r, hr, hl, hrt⟩ := Read_sample_truncZ A V s buf k x hk hlo hhi hx h1 h2
  refine ⟨r, hr, ?_, ?_, by rw [hl, hrt], ?_, ?_, ?_⟩
  · intro h0
    rw [hl]
    unfold truncZ
    rw [if_pos h0]
  · intro h0
    rw [hl]
    unfold truncZ
    rw [if_neg (not_le.mpr h0)]
  · rw [hl]
    exact truncZ_abs_le x
  · rw [hl]
    exact truncZ_dist_lt x
  · intro hd he
    rw [he] at hd
    have := abs_sub_round x
    linarith

/-- A run of C9 at 11025 Hz, volume 0.00002 and phase 1: the amplitude 0.65534 is written
as 0, which is not the nearest integer. -/
theorem C9_conversion_truncates_witness :
    ∃ r, Read nanRealOps ⟨some 11025, some (1 / 50000), 1⟩ [0, 0, 0, 0] = some r ∧
      leftSample r.buf 0 = ⌊(32767 / 50000 : ℝ)⌋ ∧
      leftSample r.buf 0 = 0 ∧
      rightSample r.buf 0 = leftSample r.buf 0 ∧
      |((leftSample r.buf 0 : Int) : ℝ)| ≤ |(32767 / 50000 : ℝ)| ∧
      |(32767 / 50000 : ℝ) - ((leftSample r.buf 0 : Int) : ℝ)| < 1 ∧
      leftSample r.buf 0 ≠ round (32767 / 50000 : ℝ) := by
  obtain ⟨r, hr, hf, _, hrt, ha, hd, hn⟩ :=
    C9_conversion_truncates nanRealOps nanRealValue ⟨some 11025, some (1 / 50000), 1⟩
      [0, 0, 0, 0] 0 (32767 / 50000) (by decide) (by norm_num) (by norm_num)
      (by
        show amplitude nanRealOps ⟨some 11025, some (1 / 50000), 1 + ((0 : Nat) : Int)⟩
          = some (32767 / 50000)
        rw [amplitude_nanRealOps, scaledAmplitude_quarter])
      (by norm_num) (by norm_num)
  have hfl : ⌊(32767 / 50000 : ℝ)⌋ = 0 := by
    rw [Int.floor_eq_iff]
    constructor <;> norm_num
  have h0 : leftSample r.buf 0 = 0 := by rw [hf (by norm_num), hfl]
  refine ⟨r, hr, hf (by norm_num), h0, hrt, ha, hd, hn ?_⟩
  rw [h0]
  norm_num
  rw [abs_of_nonneg (by norm_num)]
  norm_num

end BtKeepalive
